import Mathlib

/-!
# Verification of the blender-to-smf exporter

Shallow embedding of the SMF exporter (`export_smf.py`, `smf.py`, `pydq.py`)
and proofs about it.  Python floats are modelled as exact rationals (`ℚ`)
where the code performs field arithmetic, and as reals (`ℝ`) where the code
takes square roots; byte strings are modelled as `List ℕ`.
-/

/-- Python `int(x)` on a float: truncation toward zero. -/
def pyTrunc (q : ℚ) : ℤ :=
  if 0 ≤ q then ⌊q⌋ else -⌊-q⌋

namespace SMFv11

/-! ## The v11 container layout (`export_smf.py`, lines 519-538)

Chunks are byte arrays; `pack('I', x)` writes a 4-byte little-endian
unsigned 32-bit integer (Python raises `struct.error` when the value does
not fit, hence the `< 2^32` hypotheses where the written bytes matter). -/

/-- `pack('I', x)`: 4 little-endian bytes of an unsigned 32-bit value. -/
def pack4 (x : ℕ) : List ℕ :=
  [x % 256, x / 256 % 256, x / 65536 % 256, x / 16777216 % 256]

/-- Decoding of a 4-byte little-endian unsigned 32-bit value. -/
def unpack4 (b : List ℕ) : ℕ :=
  b.getD 0 0 + 256 * b.getD 1 0 + 65536 * b.getD 2 0 + 16777216 * b.getD 3 0

/-- The v11 magic string `"SMF_v11_by_Snidr_and_Bart\0"` as bytes. -/
def magic : List ℕ :=
  ("SMF_v11_by_Snidr_and_Bart".toList.map Char.toNat) ++ [0]

/-- Offset of the texture chunk: `len(header_bytes) + calcsize('IIIII')`. -/
def tex_pos : ℕ := magic.length + 20

/-- Offset of the model chunk. -/
def mod_pos (texture_bytes : List ℕ) : ℕ := tex_pos + texture_bytes.length

/-- Offset of the rig chunk. -/
def rig_pos (texture_bytes model_bytes : List ℕ) : ℕ :=
  mod_pos texture_bytes + model_bytes.length

/-- Offset of the animation chunk. -/
def ani_pos (texture_bytes model_bytes rig_bytes : List ℕ) : ℕ :=
  rig_pos texture_bytes model_bytes + rig_bytes.length

/-- The v11 header: magic string, the four chunk offsets, a placeholder. -/
def header_bytes (texture_bytes model_bytes rig_bytes : List ℕ) : List ℕ :=
  magic ++ pack4 tex_pos ++ pack4 (mod_pos texture_bytes)
    ++ pack4 (rig_pos texture_bytes model_bytes)
    ++ pack4 (ani_pos texture_bytes model_bytes rig_bytes)
    ++ pack4 0

/-- The complete v11 file: header then texture, model, rig, animation chunks
(the `file.write` sequence at the end of `export_smf_file`). -/
def smf_file (texture_bytes model_bytes rig_bytes animation_bytes : List ℕ) :
    List ℕ :=
  header_bytes texture_bytes model_bytes rig_bytes
    ++ texture_bytes ++ model_bytes ++ rig_bytes ++ animation_bytes

theorem magic_length : magic.length = 26 := by decide

theorem header_length (t m r : List ℕ) : (header_bytes t m r).length = 46 := by
  simp [header_bytes, pack4, magic_length]

theorem pack4_unpack4 (x : ℕ) (h : x < 4294967296) : unpack4 (pack4 x) = x := by
  simp only [pack4, unpack4, List.getD_cons_zero, List.getD_cons_succ]
  omega

theorem tex_pos_eq : tex_pos = 46 := by decide

theorem header_eq_tex_pos (t m r : List ℕ) :
    (header_bytes t m r).length = tex_pos := by
  rw [header_length]; decide

/-- C1: in a v11 container, each header offset equals the byte position at
which that chunk starts (dropping that many bytes of the file lands on the
chunk's first byte), adjacent offsets differ by exactly the earlier chunk's
length, and (when the file fits in 32 bits) the four little-endian words
written right after the magic string decode to exactly those offsets. -/
theorem c1_v11_chunk_offsets (t m r a : List ℕ)
    (h : ani_pos t m r < 4294967296) :
    (smf_file t m r a).drop tex_pos = t ++ (m ++ (r ++ a))
    ∧ (smf_file t m r a).drop (mod_pos t) = m ++ (r ++ a)
    ∧ (smf_file t m r a).drop (rig_pos t m) = r ++ a
    ∧ (smf_file t m r a).drop (ani_pos t m r) = a
    ∧ mod_pos t - tex_pos = t.length
    ∧ rig_pos t m - mod_pos t = m.length
    ∧ ani_pos t m r - rig_pos t m = r.length
    ∧ unpack4 (((smf_file t m r a).drop magic.length).take 4) = tex_pos
    ∧ unpack4 (((smf_file t m r a).drop (magic.length + 4)).take 4) = mod_pos t
    ∧ unpack4 (((smf_file t m r a).drop (magic.length + 8)).take 4)
        = rig_pos t m
    ∧ unpack4 (((smf_file t m r a).drop (magic.length + 12)).take 4)
        = ani_pos t m r := by
  have htex : tex_pos ≤ mod_pos t := Nat.le_add_right _ _
  have hmod : mod_pos t ≤ rig_pos t m := Nat.le_add_right _ _
  have hrig : rig_pos t m ≤ ani_pos t m r := Nat.le_add_right _ _
  have htex32 : tex_pos < 4294967296 := lt_of_le_of_lt (htex.trans (hmod.trans hrig)) h
  have hmod32 : mod_pos t < 4294967296 := lt_of_le_of_lt (hmod.trans hrig) h
  have hrig32 : rig_pos t m < 4294967296 := lt_of_le_of_lt hrig h
  have hfile : smf_file t m r a
      = header_bytes t m r ++ (t ++ (m ++ (r ++ a))) := by
    simp [smf_file, List.append_assoc]
  have hdrop0 : (smf_file t m r a).drop tex_pos = t ++ (m ++ (r ++ a)) := by
    rw [hfile]; exact List.drop_left' (header_eq_tex_pos t m r)
  have hdrop1 : (smf_file t m r a).drop (mod_pos t) = m ++ (r ++ a) := by
    rw [hfile, show header_bytes t m r ++ (t ++ (m ++ (r ++ a)))
          = (header_bytes t m r ++ t) ++ (m ++ (r ++ a)) by
        simp [List.append_assoc]]
    refine List.drop_left' ?_
    simp [header_length, mod_pos, tex_pos_eq]
  have hdrop2 : (smf_file t m r a).drop (rig_pos t m) = r ++ a := by
    rw [hfile, show header_bytes t m r ++ (t ++ (m ++ (r ++ a)))
          = ((header_bytes t m r ++ t) ++ m) ++ (r ++ a) by
        simp [List.append_assoc]]
    refine List.drop_left' ?_
    simp [rig_pos, mod_pos, header_length, tex_pos_eq]
    omega
  have hdrop3 : (smf_file t m r a).drop (ani_pos t m r) = a := by
    rw [hfile, show header_bytes t m r ++ (t ++ (m ++ (r ++ a)))
          = (((header_bytes t m r ++ t) ++ m) ++ r) ++ a by
        simp [List.append_assoc]]
    refine List.drop_left' ?_
    simp [ani_pos, rig_pos, mod_pos, header_length, tex_pos_eq]
    omega
  have hassoc : smf_file t m r a
      = magic ++ (pack4 tex_pos ++ (pack4 (mod_pos t) ++ (pack4 (rig_pos t m)
          ++ (pack4 (ani_pos t m r)
            ++ (pack4 0 ++ (t ++ (m ++ (r ++ a)))))))) := by
    simp [smf_file, header_bytes, List.append_assoc]
  have htake : ∀ (x : ℕ) (rest : List ℕ), (pack4 x ++ rest).take 4 = pack4 x := by
    intro x rest; simp [pack4]
  have hp4 : ∀ x : ℕ, (pack4 x).length = 4 := by intro x; simp [pack4]
  refine ⟨hdrop0, hdrop1, hdrop2, hdrop3, by simp [mod_pos], by simp [rig_pos],
    by simp [ani_pos], ?_, ?_, ?_, ?_⟩
  · rw [hassoc, List.drop_left' rfl, htake, pack4_unpack4 _ htex32]
  · rw [← List.drop_drop, hassoc, List.drop_left' rfl,
      List.drop_left' (hp4 tex_pos), htake, pack4_unpack4 _ hmod32]
  · rw [show magic.length + 8 = magic.length + 4 + 4 by omega,
      ← List.drop_drop, ← List.drop_drop, hassoc, List.drop_left' rfl,
      List.drop_left' (hp4 tex_pos), List.drop_left' (hp4 (mod_pos t)),
      htake, pack4_unpack4 _ hrig32]
  · rw [show magic.length + 12 = magic.length + 4 + 4 + 4 by omega,
      ← List.drop_drop, ← List.drop_drop, ← List.drop_drop, hassoc,
      List.drop_left' rfl, List.drop_left' (hp4 tex_pos),
      List.drop_left' (hp4 (mod_pos t)), List.drop_left' (hp4 (rig_pos t m)),
      htake, pack4_unpack4 _ h]

/-- Witness for C1 at a concrete container with 1-, 2-, 1- and 1-byte chunks. -/
theorem c1_v11_chunk_offsets_witness :
    (smf_file [7] [8, 9] [4] [5]).drop tex_pos = [7] ++ ([8, 9] ++ ([4] ++ [5]))
    ∧ (smf_file [7] [8, 9] [4] [5]).drop (mod_pos [7]) = [8, 9] ++ ([4] ++ [5])
    ∧ (smf_file [7] [8, 9] [4] [5]).drop (rig_pos [7] [8, 9]) = [4] ++ [5]
    ∧ (smf_file [7] [8, 9] [4] [5]).drop (ani_pos [7] [8, 9] [4]) = [5]
    ∧ mod_pos [7] - tex_pos = [7].length
    ∧ rig_pos [7] [8, 9] - mod_pos [7] = [8, 9].length
    ∧ ani_pos [7] [8, 9] [4] - rig_pos [7] [8, 9] = [4].length
    ∧ unpack4 (((smf_file [7] [8, 9] [4] [5]).drop magic.length).take 4)
        = tex_pos
    ∧ unpack4 (((smf_file [7] [8, 9] [4] [5]).drop (magic.length + 4)).take 4)
        = mod_pos [7]
    ∧ unpack4 (((smf_file [7] [8, 9] [4] [5]).drop (magic.length + 8)).take 4)
        = rig_pos [7] [8, 9]
    ∧ unpack4 (((smf_file [7] [8, 9] [4] [5]).drop (magic.length + 12)).take 4)
        = ani_pos [7] [8, 9] [4] :=
  c1_v11_chunk_offsets [7] [8, 9] [4] [5] (by decide)

end SMFv11

namespace AnimSampler

/-! ## Fixed-interval (`'SPL'`) sampling (`export_smf.py`, lines 493-497)
and normalized keyframe times (`write_animation_data`, line 402). -/

/-- `kf_times` built in `'SPL'` mode:
`frame_range[0] + (frame_range[1]-frame_range[0])*i/subdivisions`
for `i = 0 .. subdivisions`. -/
def spl_kf_times (frame_start frame_end : ℚ) (subdivisions : ℕ) : List ℚ :=
  (List.range (subdivisions + 1)).map
    (fun i => frame_start + (frame_end - frame_start) * i / subdivisions)

/-- `kf_end = kf_times[subdivisions]`. -/
def spl_kf_end (frame_start frame_end : ℚ) (subdivisions : ℕ) : ℚ :=
  (spl_kf_times frame_start frame_end subdivisions).getD subdivisions 0

/-- `smf_kf_time = kf_time/frame_max` written to the animation chunk. -/
def smf_kf_time (kf_time frame_max : ℚ) : ℚ := kf_time / frame_max

/-- C6: sampling an action whose frame range is `[0, f]` (e.g. a 100-frame
action over frames `0..100`) with `subdivisions = 4` yields exactly 5 sample
times, evenly spaced at `f/4`, whose normalized values are exactly
`0, 1/4, 1/2, 3/4, 1`. -/
theorem c6_spl_subdivisions_four (f : ℚ) (hf : 0 < f) :
    (spl_kf_times 0 f 4).length = 5
    ∧ (spl_kf_times 0 f 4).map (fun t => smf_kf_time t (spl_kf_end 0 f 4))
        = [0, 1/4, 1/2, 3/4, 1]
    ∧ ∀ i : ℕ, i < 4 →
        (spl_kf_times 0 f 4).getD (i + 1) 0 - (spl_kf_times 0 f 4).getD i 0
          = f / 4 := by
  have hne : f ≠ 0 := ne_of_gt hf
  have hr : List.range (4 + 1) = [0, 1, 2, 3, 4] := by decide
  have h4 : spl_kf_times 0 f 4 = [0, f / 4, f / 2, 3 * f / 4, f] := by
    simp only [spl_kf_times, hr, List.map_cons, List.map_nil]
    norm_num
    refine ⟨by ring, by ring⟩
  have hend : spl_kf_end 0 f 4 = f := by
    simp [spl_kf_end, h4, List.getD]
  refine ⟨by rw [h4]; rfl, ?_, ?_⟩
  · rw [h4, hend]
    simp only [List.map_cons, List.map_nil, smf_kf_time, List.cons.injEq,
      and_true]
    refine ⟨by simp, ?_, ?_, ?_, by field_simp⟩
    · rw [div_div, div_eq_div_iff (by positivity) (by norm_num)]; ring
    · rw [div_div, div_eq_div_iff (by positivity) (by norm_num)]; ring
    · rw [div_div, div_eq_div_iff (by positivity) (by norm_num)]; ring
  · intro i hi
    rw [h4]
    interval_cases i <;> simp [List.getD] <;> ring

/-- Witness for C6: the 100-frame instance. -/
theorem c6_spl_subdivisions_four_witness :
    (0 : ℚ) < 100
    ∧ ((spl_kf_times 0 100 4).length = 5
      ∧ (spl_kf_times 0 100 4).map
          (fun t => smf_kf_time t (spl_kf_end 0 100 4))
          = [0, 1/4, 1/2, 3/4, 1]
      ∧ ∀ i : ℕ, i < 4 →
          (spl_kf_times 0 100 4).getD (i + 1) 0
            - (spl_kf_times 0 100 4).getD i 0 = 100 / 4) :=
  ⟨by norm_num, c6_spl_subdivisions_four 100 (by norm_num)⟩

end AnimSampler

namespace TangentQuant

/-! ## Tangent quantization

v11 (`export_smf.py`, line 320): `int((c+1)*127)` per component.
v10 (`smf.py`, line 283): `int(c*255)` per component. -/

/-- One tangent component quantized by the v11 exporter. -/
def tan_quant_v11 (c : ℚ) : ℤ := pyTrunc ((c + 1) * 127)

/-- One tangent component quantized by the v10 exporter. -/
def tan_quant_v10 (c : ℚ) : ℤ := pyTrunc (c * 255)

/-- C9 counterexample: in the v11 exporter a tangent component of `+1` is
quantized to `254`, not `255`; the v11 output never spans the full `[0,255]`
range claimed. -/
theorem c9_counterexample :
    tan_quant_v11 1 = 254 ∧ tan_quant_v11 1 ≠ 255 := by
  constructor <;> norm_num [tan_quant_v11, pyTrunc]

/-- C9 amended: the v11 exporter maps `[-1,1]` into `[0,254]` with `-1 ↦ 0`
and `+1 ↦ 254` (value `255` is never produced); the older v10 exporter maps
`[0,1]` to `[0,255]` with `0 ↦ 0` and `1 ↦ 255`. -/
theorem c9_tangent_quantization :
    (∀ c : ℚ, -1 ≤ c → c ≤ 1 →
        0 ≤ tan_quant_v11 c ∧ tan_quant_v11 c ≤ 254)
    ∧ tan_quant_v11 (-1) = 0 ∧ tan_quant_v11 1 = 254
    ∧ (∀ c : ℚ, 0 ≤ c → c ≤ 1 →
        0 ≤ tan_quant_v10 c ∧ tan_quant_v10 c ≤ 255)
    ∧ tan_quant_v10 0 = 0 ∧ tan_quant_v10 1 = 255 := by
  refine ⟨?_, by norm_num [tan_quant_v11, pyTrunc],
    by norm_num [tan_quant_v11, pyTrunc], ?_,
    by norm_num [tan_quant_v10, pyTrunc], by norm_num [tan_quant_v10, pyTrunc]⟩
  · intro c h1 h2
    have hx0 : (0 : ℚ) ≤ (c + 1) * 127 := by nlinarith
    have hx1 : (c + 1) * 127 ≤ 254 := by nlinarith
    unfold tan_quant_v11 pyTrunc
    rw [if_pos hx0]
    constructor
    · exact Int.floor_nonneg.mpr hx0
    · calc ⌊(c + 1) * 127⌋ ≤ ⌊(254 : ℚ)⌋ := Int.floor_le_floor hx1
        _ = 254 := by norm_num
  · intro c h1 h2
    have hx0 : (0 : ℚ) ≤ c * 255 := by nlinarith
    have hx1 : c * 255 ≤ 255 := by nlinarith
    unfold tan_quant_v10 pyTrunc
    rw [if_pos hx0]
    constructor
    · exact Int.floor_nonneg.mpr hx0
    · calc ⌊c * 255⌋ ≤ ⌊(255 : ℚ)⌋ := Int.floor_le_floor hx1
        _ = 255 := by norm_num

/-- Witness for C9 at the component value `1/2`. -/
theorem c9_tangent_quantization_witness :
    (0 ≤ tan_quant_v11 (1/2) ∧ tan_quant_v11 (1/2) ≤ 254)
    ∧ (0 ≤ tan_quant_v10 (1/2) ∧ tan_quant_v10 (1/2) ≤ 255) :=
  ⟨c9_tangent_quantization.1 (1/2) (by norm_num) (by norm_num),
   c9_tangent_quantization.2.2.2.1 (1/2) (by norm_num) (by norm_num)⟩

end TangentQuant

namespace pydq

/-! ## The dual-quaternion library (`pydq.py`)

`mathutils.Quaternion` components are `(w, x, y, z)`; `q1 @ q2` is the
Hamilton product, `s * q` the componentwise scaling, `q1.dot(q2)` the
4-component dot product and `q.magnitude` the Euclidean norm.  Components
are modelled as reals since `magnitude` takes a square root. -/

/-- A quaternion, components in mathutils order `(w, x, y, z)`. -/
structure Quat where
  w : ℝ
  x : ℝ
  y : ℝ
  z : ℝ

/-- Hamilton product `q1 @ q2`. -/
noncomputable def quatMul (a b : Quat) : Quat :=
  ⟨a.w * b.w - a.x * b.x - a.y * b.y - a.z * b.z,
   a.w * b.x + a.x * b.w + a.y * b.z - a.z * b.y,
   a.w * b.y - a.x * b.z + a.y * b.w + a.z * b.x,
   a.w * b.z + a.x * b.y - a.y * b.x + a.z * b.w⟩

/-- Componentwise scaling `s * q`. -/
noncomputable def smul (s : ℝ) (q : Quat) : Quat := ⟨s * q.w, s * q.x, s * q.y, s * q.z⟩

/-- Componentwise difference of quaternions. -/
noncomputable def qsub (a b : Quat) : Quat := ⟨a.w - b.w, a.x - b.x, a.y - b.y, a.z - b.z⟩

/-- 4-component dot product `q1.dot(q2)`. -/
noncomputable def dot (a b : Quat) : ℝ := a.w * b.w + a.x * b.x + a.y * b.y + a.z * b.z

/-- `q.magnitude`. -/
noncomputable def magnitude (q : Quat) : ℝ := Real.sqrt (dot q q)

/-- A dual quaternion: a named tuple of two quaternions. -/
structure DQ where
  real : Quat
  dual : Quat

/-- A 4x4 mathutils matrix (row-major: `M i j` is row `i`, column `j`). -/
def Mat4R : Type := Matrix (Fin 4) (Fin 4) ℝ

/-- `matrix.col[3][0:3]`: the translation held in the fourth column. -/
def matrix_col3 (matrix : Mat4R) : Fin 3 → ℝ := fun i => matrix i.castSucc 3

/-- `dq_create_matrix_vector(matrix, vector)`.  `matrix.to_quaternion()` is
mathutils C code external to the repository; it is passed in as `toQ` (both
source functions call it on the same argument, so the equivalence holds for
any `toQ`). -/
noncomputable def dq_create_matrix_vector (toQ : Mat4R → Quat) (matrix : Mat4R)
    (vector : Fin 3 → ℝ) : DQ :=
  let real := toQ matrix
  ⟨real, quatMul (smul (1/2) ⟨0, vector 0, vector 1, vector 2⟩) real⟩

/-- `dq_create_matrix(matrix)`: reads the translation from the matrix's
fourth column, then builds the same dual quaternion. -/
noncomputable def dq_create_matrix (toQ : Mat4R → Quat) (matrix : Mat4R) : DQ :=
  let translation := matrix_col3 matrix
  let real := toQ matrix
  ⟨real, quatMul (smul (1/2) ⟨0, translation 0, translation 1, translation 2⟩) real⟩

section
open scoped Classical

/-- `dq_normalize(dq)`.  The first statement computes `1 / dq.real.magnitude`,
so a zero-magnitude real part raises `ZeroDivisionError` (modelled as
`.error ()`); otherwise the real part is normalized in place and the dual
part is Gram-Schmidt-orthogonalized against it and scaled. -/
noncomputable def dq_normalize (dq : DQ) : Except Unit DQ :=
  if magnitude dq.real = 0 then .error () else
    let l := 1 / magnitude dq.real
    let realN := smul (1 / magnitude dq.real) dq.real
    let d := dot realN dq.dual
    .ok ⟨realN, smul l (qsub dq.dual (smul d realN))⟩

end

/-- C10: `dq_create_matrix(M)` equals
`dq_create_matrix_vector(M, M.col[3][0:3])` for every matrix `M` and every
quaternion-extraction function, and both produce real part `M.to_quaternion()`
and dual part `0.5 * Quaternion([0, *t]) @ real`. -/
theorem c10_create_matrix_equivalence (toQ : Mat4R → Quat) (matrix : Mat4R) :
    dq_create_matrix toQ matrix
      = dq_create_matrix_vector toQ matrix (matrix_col3 matrix)
    ∧ dq_create_matrix toQ matrix
      = ⟨toQ matrix,
         quatMul (smul (1/2)
           ⟨0, matrix 0 3, matrix 1 3, matrix 2 3⟩) (toQ matrix)⟩ :=
  ⟨rfl, rfl⟩

theorem dot_nonneg_self (q : Quat) : 0 ≤ dot q q := by
  unfold dot; nlinarith [sq_nonneg q.w, sq_nonneg q.x, sq_nonneg q.y, sq_nonneg q.z]

theorem magnitude_sq (q : Quat) : magnitude q * magnitude q = dot q q :=
  Real.mul_self_sqrt (dot_nonneg_self q)

theorem dot_smul_right (a : ℝ) (q r : Quat) : dot q (smul a r) = a * dot q r := by
  unfold dot smul; ring

theorem dot_smul_both (a : ℝ) (q r : Quat) :
    dot (smul a q) (smul a r) = a * a * dot q r := by
  unfold dot smul; ring

theorem dot_qsub_right (q a b : Quat) :
    dot q (qsub a b) = dot q a - dot q b := by
  unfold dot qsub; ring

/-- C8 counterexample: on a dual quaternion whose real part has zero
magnitude, `dq_normalize` raises `ZeroDivisionError` at `1 / dq.real.magnitude`
rather than returning silently. -/
theorem c8_counterexample :
    dq_normalize ⟨⟨0, 0, 0, 0⟩, ⟨0, 1, 2, 3⟩⟩ = .error () := by
  have hzero : magnitude (⟨0, 0, 0, 0⟩ : Quat) = 0 := by simp [magnitude, dot]
  unfold dq_normalize
  rw [if_pos hzero]

/-- C8 amended: `dq_normalize` raises `ZeroDivisionError` when the real part
has zero magnitude; on non-degenerate input it returns normally, the real
part divided by its magnitude (unit magnitude), with the dual part
Gram-Schmidt-orthogonal to the real part. -/
theorem c8_dq_normalize (dq : DQ) (h : magnitude dq.real ≠ 0) :
    ∃ dq' : DQ,
      dq_normalize dq = .ok dq'
      ∧ dq'.real = smul (1 / magnitude dq.real) dq.real
      ∧ magnitude dq'.real = 1
      ∧ dot dq'.real dq'.dual = 0 := by
  have hsq : magnitude dq.real * magnitude dq.real = dot dq.real dq.real :=
    magnitude_sq dq.real
  have hN : dot (smul (1 / magnitude dq.real) dq.real)
      (smul (1 / magnitude dq.real) dq.real) = 1 := by
    rw [dot_smul_both, ← hsq]
    field_simp
  refine ⟨⟨smul (1 / magnitude dq.real) dq.real,
    smul (1 / magnitude dq.real) (qsub dq.dual
      (smul (dot (smul (1 / magnitude dq.real) dq.real) dq.dual)
        (smul (1 / magnitude dq.real) dq.real)))⟩,
    ?_, rfl, ?_, ?_⟩
  · unfold dq_normalize
    rw [if_neg h]
  · show Real.sqrt (dot (smul (1 / magnitude dq.real) dq.real)
        (smul (1 / magnitude dq.real) dq.real)) = 1
    rw [hN, Real.sqrt_one]
  · show dot (smul (1 / magnitude dq.real) dq.real)
        (smul (1 / magnitude dq.real) (qsub dq.dual
          (smul (dot (smul (1 / magnitude dq.real) dq.real) dq.dual)
            (smul (1 / magnitude dq.real) dq.real)))) = 0
    rw [dot_smul_right, dot_qsub_right, dot_smul_right, hN]
    ring

/-- Witness for C8 at a concrete non-degenerate dual quaternion. -/
theorem c8_dq_normalize_witness :
    magnitude ⟨1, 0, 0, 0⟩ ≠ 0
    ∧ ∃ dq' : DQ,
        dq_normalize ⟨⟨1, 0, 0, 0⟩, ⟨0, 3, 4, 5⟩⟩ = .ok dq'
        ∧ dq'.real = smul (1 / magnitude ⟨1, 0, 0, 0⟩) ⟨1, 0, 0, 0⟩
        ∧ magnitude dq'.real = 1
        ∧ dot dq'.real dq'.dual = 0 := by
  have h : magnitude (⟨1, 0, 0, 0⟩ : Quat) ≠ 0 := by
    simp [magnitude, dot]
  exact ⟨h, c8_dq_normalize ⟨⟨1, 0, 0, 0⟩, ⟨0, 3, 4, 5⟩⟩ h⟩

end pydq

namespace Skinning

/-! ## The vertex skinning resolver (`export_smf.py`, lines 89-113) -/

/-- One vertex-group assignment of a vertex (`group.group`, `group.weight`). -/
structure VGroup where
  group : ℕ
  weight : ℚ
deriving DecidableEq

/-- `sorted(groups, key=lambda group: group.weight)`: Python's stable sort,
ascending by weight. -/
def sortByWeight (l : List VGroup) : List VGroup :=
  l.mergeSort (fun g1 g2 => g1.weight ≤ g2.weight)

/-- Python `groups[-num_influences:]` (for `num = 0` this is `groups[0:]`,
the whole list). -/
def takeLast (l : List VGroup) (num : ℕ) : List VGroup :=
  if num = 0 then l else l.drop (l.length - num)

/-- The groups kept for one vertex: those whose group id is a key of the
index map (`group.group in index_map.keys()`), with weight `> 0.0`, sorted
ascending by weight, last `num_influences` kept. -/
def keptGroups (vgroups : List VGroup) (keys : List ℕ)
    (num_influences : ℕ) : List VGroup :=
  let mod_groups := vgroups.filter (fun g => g.group ∈ keys)
  let pos := mod_groups.filter (fun g => 0 < g.weight)
  takeLast (sortByWeight pos) num_influences

/-- `w = group.weight/s*255; int(w if w <= 255 else 255)`. -/
def quantWeight (w s : ℚ) : ℤ :=
  if w / s * 255 ≤ 255 then pyTrunc (w / s * 255) else 255

/-- The body of `smf_skin_indices_weights` for a single vertex: the two
4-slot rows `indices[v.index]` (initialized `[0,0,0,0]`) and
`weights[v.index]` (initialized `[1,0,0,0]`), written in slot order for the
kept groups. -/
def smf_skin_one (vgroups : List VGroup) (index_map : ℕ → ℕ) (keys : List ℕ)
    (num_influences : ℕ) : List ℕ × List ℤ :=
  let groups := keptGroups vgroups keys num_influences
  let s := (groups.map VGroup.weight).sum
  groups.enum.foldl
    (fun acc p =>
      (acc.1.set p.1 (index_map p.2.group),
       acc.2.set p.1 (quantWeight p.2.weight s)))
    ([0, 0, 0, 0], [1, 0, 0, 0])

/-- `smf_skin_indices_weights(vertices, index_map, num_influences)`:
the Python code preallocates two rows per vertex and fills row `v.index`
while visiting each vertex exactly once, which is the same as mapping
`smf_skin_one` over the vertices. -/
def smf_skin_indices_weights (vertices : List (List VGroup))
    (index_map : ℕ → ℕ) (keys : List ℕ) (num_influences : ℕ) :
    List (List ℕ × List ℤ) :=
  vertices.map (fun v => smf_skin_one v index_map keys num_influences)

/-- The slot-assignment `foldl` writes the first `kept.length ≤ 4` slots and
leaves the rest of the initial row. -/
theorem skin_foldl_eq (kept : List VGroup) (im : ℕ → ℕ) (s : ℚ)
    (h : kept.length ≤ 4) :
    kept.enum.foldl
      (fun acc p =>
        (acc.1.set p.1 (im p.2.group),
         acc.2.set p.1 (quantWeight p.2.weight s)))
      ([0, 0, 0, 0], [1, 0, 0, 0])
    = (kept.map (fun g => im g.group) ++ List.drop kept.length [0, 0, 0, 0],
       kept.map (fun g => quantWeight g.weight s)
         ++ List.drop kept.length ([1, 0, 0, 0] : List ℤ)) := by
  match kept with
  | [] => rfl
  | [a] => rfl
  | [a, b] => rfl
  | [a, b, c] => rfl
  | [a, b, c, d] => rfl
  | a :: b :: c :: d :: e :: rest => simp at h

theorem sum_map_floor_le (l : List ℚ) :
    (((l.map (fun x => ⌊x⌋)).sum : ℤ) : ℚ) ≤ l.sum := by
  induction l with
  | nil => simp
  | cons a t ih =>
    simp only [List.map_cons, List.sum_cons, Int.cast_add]
    exact add_le_add (Int.floor_le a) ih

theorem sum_map_floor_gt : ∀ (a : ℚ) (t : List ℚ),
    (a :: t).sum - (a :: t).length
      < ((((a :: t).map (fun x => ⌊x⌋)).sum : ℤ) : ℚ)
  | a, [] => by simpa using Int.sub_one_lt_floor a
  | a, b :: t => by
    have ih := sum_map_floor_gt b t
    simp only [List.map_cons, List.sum_cons, List.length_cons, Int.cast_add]
      at ih ⊢
    have hfa := Int.sub_one_lt_floor a
    push_cast at ih ⊢
    linarith

theorem sum_map_div_mul (l : List ℚ) (s : ℚ) :
    (l.map (fun x => x / s * 255)).sum = l.sum / s * 255 := by
  induction l with
  | nil => simp
  | cons a t ih =>
    simp only [List.map_cons, List.sum_cons, ih]
    ring

theorem drop_init_sum (k : ℕ) (hk : 1 ≤ k) :
    (List.drop k ([1, 0, 0, 0] : List ℤ)).sum = 0 := by
  cases k with
  | zero => omega
  | succ n =>
    show (List.drop n ([0, 0, 0] : List ℤ)).sum = 0
    refine List.sum_eq_zero (fun x hx => ?_)
    have hm := List.mem_of_mem_drop hx
    simp at hm
    omega



theorem keptGroups_eq (v : List VGroup) (keys : List ℕ) (num : ℕ) :
    keptGroups v keys num
      = takeLast (sortByWeight ((v.filter (fun g => g.group ∈ keys)).filter
          (fun g => 0 < g.weight))) num := rfl

theorem mem_keptGroups {v : List VGroup} {keys : List ℕ} {num : ℕ}
    (h1 : 1 ≤ num) {g : VGroup} (hg : g ∈ keptGroups v keys num) :
    g ∈ v ∧ g.group ∈ keys ∧ 0 < g.weight := by
  rw [keptGroups_eq, takeLast, if_neg (by omega)] at hg
  have hmem := List.mem_of_mem_drop hg
  unfold sortByWeight at hmem
  rw [List.mem_mergeSort] at hmem
  simp only [List.mem_filter, decide_eq_true_eq] at hmem
  exact ⟨hmem.1.1, hmem.1.2, hmem.2⟩

theorem keptGroups_length_le {v : List VGroup} {keys : List ℕ} {num : ℕ}
    (h1 : 1 ≤ num) (h4 : num ≤ 4) :
    (keptGroups v keys num).length ≤ 4 := by
  rw [keptGroups_eq, takeLast, if_neg (by omega), List.length_drop]
  omega

theorem keptGroups_ne_nil {v : List VGroup} {keys : List ℕ} {num : ℕ}
    (h1 : 1 ≤ num) (hex : ∃ g ∈ v, g.group ∈ keys ∧ 0 < g.weight) :
    keptGroups v keys num ≠ [] := by
  obtain ⟨g, hgv, hgk, hgw⟩ := hex
  have hpos : g ∈ (v.filter (fun g => g.group ∈ keys)).filter
      (fun g => 0 < g.weight) := by
    simp only [List.mem_filter, decide_eq_true_eq]
    exact ⟨⟨hgv, hgk⟩, hgw⟩
  have hlen : 0 < ((v.filter (fun g => g.group ∈ keys)).filter
      (fun g => 0 < g.weight)).length :=
    List.length_pos.mpr (List.ne_nil_of_mem hpos)
  rw [← List.length_pos, keptGroups_eq, takeLast, if_neg (by omega),
    List.length_drop]
  unfold sortByWeight
  rw [List.length_mergeSort]
  omega

theorem keptGroups_eq_nil {v : List VGroup} {keys : List ℕ} {num : ℕ}
    (hnex : ¬ ∃ g ∈ v, g.group ∈ keys ∧ 0 < g.weight) :
    keptGroups v keys num = [] := by
  have hpos : (v.filter (fun g => g.group ∈ keys)).filter
      (fun g => 0 < g.weight) = [] := by
    rw [List.eq_nil_iff_forall_not_mem]
    intro g hg
    simp only [List.mem_filter, decide_eq_true_eq] at hg
    exact hnex ⟨g, hg.1.1, hg.1.2, hg.2⟩
  rw [keptGroups_eq, hpos]
  unfold sortByWeight
  rw [List.mergeSort_nil, takeLast]
  cases num <;> simp

/-- C2 amended: for a vertex with at least one valid weight group (group in
the bindmap with weight > 0) the four output weight bytes sum to a value in
`{252, 253, 254, 255}` (each kept weight is quantized by truncation
`int(weight/sum*255)`, clamped above at 255, so up to 3 units can be lost);
for a vertex with no valid group the output is exactly
`indices = [0,0,0,0]`, `weights = [1,0,0,0]` (weight 1, not 255). -/
theorem c2_skin_weight_normalization (v : List VGroup) (index_map : ℕ → ℕ)
    (keys : List ℕ) (num : ℕ) (h1 : 1 ≤ num) (h4 : num ≤ 4) :
    ((∃ g ∈ v, g.group ∈ keys ∧ 0 < g.weight) →
      252 ≤ (smf_skin_one v index_map keys num).2.sum
        ∧ (smf_skin_one v index_map keys num).2.sum ≤ 255)
    ∧ ((¬ ∃ g ∈ v, g.group ∈ keys ∧ 0 < g.weight) →
      smf_skin_one v index_map keys num = ([0, 0, 0, 0], [1, 0, 0, 0])) := by
  constructor
  · intro hex
    have hne : keptGroups v keys num ≠ [] := keptGroups_ne_nil h1 hex
    have hlen4 : (keptGroups v keys num).length ≤ 4 := keptGroups_length_le h1 h4
    have hlen1 : 1 ≤ (keptGroups v keys num).length :=
      List.length_pos.mpr hne
    set kept := keptGroups v keys num with hkept
    set s := (kept.map VGroup.weight).sum with hs
    have hwpos : ∀ w ∈ kept.map VGroup.weight, 0 < w := by
      intro w hw
      obtain ⟨g, hg, rfl⟩ := List.mem_map.mp hw
      exact (mem_keptGroups h1 hg).2.2
    have hspos : 0 < s := by
      refine List.sum_pos _ hwpos ?_
      simp [hne]
    have hout : smf_skin_one v index_map keys num
        = (kept.map (fun g => index_map g.group)
            ++ List.drop kept.length [0, 0, 0, 0],
           kept.map (fun g => quantWeight g.weight s)
            ++ List.drop kept.length ([1, 0, 0, 0] : List ℤ)) :=
      skin_foldl_eq kept index_map s hlen4
    rw [hout]
    simp only [List.sum_append, drop_init_sum kept.length hlen1, add_zero]
    have hquant : kept.map (fun g => quantWeight g.weight s)
        = (kept.map VGroup.weight).map (fun w => ⌊w / s * 255⌋) := by
      rw [List.map_map]
      refine List.map_congr_left (fun g hg => ?_)
      have hw : 0 < g.weight := (mem_keptGroups h1 hg).2.2
      have hws : g.weight ≤ s :=
        List.single_le_sum (fun w hw => le_of_lt (hwpos w hw)) _
          (List.mem_map_of_mem VGroup.weight hg)
      have hle : g.weight / s * 255 ≤ 255 := by
        have : g.weight / s ≤ 1 := (div_le_one hspos).mpr hws
        nlinarith
      have h0 : (0 : ℚ) ≤ g.weight / s * 255 := by positivity
      show quantWeight g.weight s = _
      rw [quantWeight, if_pos hle, pyTrunc, if_pos h0]
      rfl
    rw [hquant]
    set ws := kept.map VGroup.weight with hws
    have hlws : ws.length = kept.length := List.length_map _ _
    have hsum255 : (ws.map (fun w => w / s * 255)).sum = 255 := by
      rw [sum_map_div_mul, ← hs, div_self (ne_of_gt hspos)]
      norm_num
    have hcomp : (ws.map (fun w => w / s * 255)).map (fun x => ⌊x⌋)
        = ws.map (fun w => ⌊w / s * 255⌋) := by
      conv_lhs => rw [List.map_map]
      rfl
    rw [← hcomp]
    have hub := sum_map_floor_le (ws.map (fun w => w / s * 255))
    rw [hsum255] at hub
    have hlenle : ((ws.map (fun w => w / s * 255)).length : ℚ) ≤ 4 := by
      have hl : (ws.map (fun w => w / s * 255)).length ≤ 4 := by
        rw [List.length_map, hlws]
        exact hlen4
      exact_mod_cast hl
    obtain ⟨a, t, hat⟩ := List.exists_cons_of_ne_nil
      (show ws.map (fun w => w / s * 255) ≠ [] by
        simp [hws, hne])
    have hgt := sum_map_floor_gt a t
    rw [← hat, hsum255] at hgt
    have h251 : (251 : ℚ)
        < (((ws.map (fun w => w / s * 255)).map (fun x => ⌊x⌋)).sum : ℚ) := by
      linarith
    have h251' : (251 : ℤ)
        < ((ws.map (fun w => w / s * 255)).map (fun x => ⌊x⌋)).sum := by
      exact_mod_cast h251
    have hub' : ((ws.map (fun w => w / s * 255)).map (fun x => ⌊x⌋)).sum
        ≤ 255 := by
      exact_mod_cast hub
    omega
  · intro hnex
    have hkept : keptGroups v keys num = [] := keptGroups_eq_nil hnex
    have hout : smf_skin_one v index_map keys num
        = ((keptGroups v keys num).map (fun g => index_map g.group)
            ++ List.drop (keptGroups v keys num).length [0, 0, 0, 0],
           (keptGroups v keys num).map (fun g => quantWeight g.weight
             (((keptGroups v keys num).map VGroup.weight).sum))
            ++ List.drop (keptGroups v keys num).length
              ([1, 0, 0, 0] : List ℤ)) :=
      skin_foldl_eq (keptGroups v keys num) index_map _ (by rw [hkept]; simp)
    rw [hout, hkept]
    simp

theorem smf_skin_one_eq (v : List VGroup) (im : ℕ → ℕ) (keys : List ℕ)
    (num : ℕ) (h : (keptGroups v keys num).length ≤ 4) :
    smf_skin_one v im keys num
      = ((keptGroups v keys num).map (fun g => im g.group)
          ++ List.drop (keptGroups v keys num).length [0, 0, 0, 0],
         (keptGroups v keys num).map
           (fun g => quantWeight g.weight
             (((keptGroups v keys num).map VGroup.weight).sum))
          ++ List.drop (keptGroups v keys num).length
            ([1, 0, 0, 0] : List ℤ)) :=
  skin_foldl_eq (keptGroups v keys num) im _ h

/-- C2 counterexample: a vertex with three valid groups of weights 1, 2, 4
gets quantized weights `[36, 72, 145, 0]`, whose sum 253 is outside the
claimed set `{254, 255, 256}`; and a vertex with no valid group (its only
group id 5 is not a bindmap key) gets `weights = [1,0,0,0]`, not
`weight[0] = 255`. -/
theorem c2_counterexample :
    (smf_skin_one [⟨0, 1⟩, ⟨1, 2⟩, ⟨2, 4⟩] (fun i => i) [0, 1, 2] 4).2
      = [36, 72, 145, 0]
    ∧ (smf_skin_one [⟨0, 1⟩, ⟨1, 2⟩, ⟨2, 4⟩] (fun i => i) [0, 1, 2] 4).2.sum
        ∉ ({254, 255, 256} : Set ℤ)
    ∧ (smf_skin_one [⟨5, 1⟩] (fun i => i) [0, 1, 2] 4).2 = [1, 0, 0, 0]
    ∧ (smf_skin_one [⟨5, 1⟩] (fun i => i) [0, 1, 2] 4).2.getD 0 0 ≠ 255 := by
  have hsort : sortByWeight [⟨0, 1⟩, ⟨1, 2⟩, ⟨2, 4⟩] = [⟨0, 1⟩, ⟨1, 2⟩, ⟨2, 4⟩] :=
    List.mergeSort_of_sorted (by decide)
  have hkept : keptGroups [⟨0, 1⟩, ⟨1, 2⟩, ⟨2, 4⟩] [0, 1, 2] 4
      = [⟨0, 1⟩, ⟨1, 2⟩, ⟨2, 4⟩] := by
    rw [keptGroups_eq,
      show ([⟨0, 1⟩, ⟨1, 2⟩, ⟨2, 4⟩] : List VGroup).filter
          (fun g => g.group ∈ ([0, 1, 2] : List ℕ)) = [⟨0, 1⟩, ⟨1, 2⟩, ⟨2, 4⟩]
        by decide,
      show ([⟨0, 1⟩, ⟨1, 2⟩, ⟨2, 4⟩] : List VGroup).filter
          (fun g => 0 < g.weight) = [⟨0, 1⟩, ⟨1, 2⟩, ⟨2, 4⟩] by decide,
      hsort]
    rfl
  have hkept2 : keptGroups [⟨5, 1⟩] [0, 1, 2] 4 = [] :=
    keptGroups_eq_nil (by decide)
  have h1 : (smf_skin_one [⟨0, 1⟩, ⟨1, 2⟩, ⟨2, 4⟩] (fun i => i) [0, 1, 2] 4).2
      = [36, 72, 145, 0] := by
    rw [smf_skin_one_eq _ _ _ _ (by rw [hkept]; norm_num), hkept]
    norm_num [quantWeight, pyTrunc]
  have h2 : (smf_skin_one [⟨5, 1⟩] (fun i => i) [0, 1, 2] 4).2
      = [1, 0, 0, 0] := by
    rw [smf_skin_one_eq _ _ _ _ (by rw [hkept2]; norm_num), hkept2]
    rfl
  refine ⟨h1, ?_, h2, ?_⟩
  · rw [h1]
    norm_num
  · rw [h2]
    norm_num

/-- Witness for C2 at concrete vertices. -/
theorem c2_skin_weight_normalization_witness :
    (1 ≤ 4 ∧ 4 ≤ 4 ∧ ∃ g ∈ ([⟨0, 1⟩, ⟨1, 2⟩] : List VGroup),
        g.group ∈ ([0, 1] : List ℕ) ∧ 0 < g.weight)
    ∧ (252 ≤ (smf_skin_one [⟨0, 1⟩, ⟨1, 2⟩] (fun i => i) [0, 1] 4).2.sum
        ∧ (smf_skin_one [⟨0, 1⟩, ⟨1, 2⟩] (fun i => i) [0, 1] 4).2.sum ≤ 255)
    ∧ (smf_skin_one [⟨7, 1⟩] (fun i => i) [0, 1] 4) = ([0, 0, 0, 0], [1, 0, 0, 0]) :=
  ⟨⟨by norm_num, by norm_num, by decide⟩,
   (c2_skin_weight_normalization [⟨0, 1⟩, ⟨1, 2⟩] (fun i => i) [0, 1] 4
      (by norm_num) (by norm_num)).1 (by decide),
   (c2_skin_weight_normalization [⟨7, 1⟩] (fun i => i) [0, 1] 4
      (by norm_num) (by norm_num)).2 (by decide)⟩

end Skinning

namespace CoordConvert

/-! ## The coordinate/basis converter (`export_smf.py`, lines 560-581) -/

/-- A 3-vector of rationals. -/
structure Vec3 where
  x : ℚ
  y : ℚ
  z : ℚ
deriving DecidableEq

/-- A 3x3 mathutils matrix, row-major entries. -/
structure Mat3 where
  m00 : ℚ
  m01 : ℚ
  m02 : ℚ
  m10 : ℚ
  m11 : ℚ
  m12 : ℚ
  m20 : ℚ
  m21 : ℚ
  m22 : ℚ
deriving DecidableEq

/-- A 4x4 mathutils matrix, row-major entries; the translation lives in
column 3 (`m03, m13, m23`). -/
structure Mat4 where
  m00 : ℚ
  m01 : ℚ
  m02 : ℚ
  m03 : ℚ
  m10 : ℚ
  m11 : ℚ
  m12 : ℚ
  m13 : ℚ
  m20 : ℚ
  m21 : ℚ
  m22 : ℚ
  m23 : ℚ
  m30 : ℚ
  m31 : ℚ
  m32 : ℚ
  m33 : ℚ
deriving DecidableEq

/-- `A @ B` on 4x4 matrices. -/
def mat4Mul (A B : Mat4) : Mat4 where
  m00 := A.m00 * B.m00 + A.m01 * B.m10 + A.m02 * B.m20 + A.m03 * B.m30
  m01 := A.m00 * B.m01 + A.m01 * B.m11 + A.m02 * B.m21 + A.m03 * B.m31
  m02 := A.m00 * B.m02 + A.m01 * B.m12 + A.m02 * B.m22 + A.m03 * B.m32
  m03 := A.m00 * B.m03 + A.m01 * B.m13 + A.m02 * B.m23 + A.m03 * B.m33
  m10 := A.m10 * B.m00 + A.m11 * B.m10 + A.m12 * B.m20 + A.m13 * B.m30
  m11 := A.m10 * B.m01 + A.m11 * B.m11 + A.m12 * B.m21 + A.m13 * B.m31
  m12 := A.m10 * B.m02 + A.m11 * B.m12 + A.m12 * B.m22 + A.m13 * B.m32
  m13 := A.m10 * B.m03 + A.m11 * B.m13 + A.m12 * B.m23 + A.m13 * B.m33
  m20 := A.m20 * B.m00 + A.m21 * B.m10 + A.m22 * B.m20 + A.m23 * B.m30
  m21 := A.m20 * B.m01 + A.m21 * B.m11 + A.m22 * B.m21 + A.m23 * B.m31
  m22 := A.m20 * B.m02 + A.m21 * B.m12 + A.m22 * B.m22 + A.m23 * B.m32
  m23 := A.m20 * B.m03 + A.m21 * B.m13 + A.m22 * B.m23 + A.m23 * B.m33
  m30 := A.m30 * B.m00 + A.m31 * B.m10 + A.m32 * B.m20 + A.m33 * B.m30
  m31 := A.m30 * B.m01 + A.m31 * B.m11 + A.m32 * B.m21 + A.m33 * B.m31
  m32 := A.m30 * B.m02 + A.m31 * B.m12 + A.m32 * B.m22 + A.m33 * B.m32
  m33 := A.m30 * B.m03 + A.m31 * B.m13 + A.m32 * B.m23 + A.m33 * B.m33

/-- Matrix product on 3x3 matrices (for stating the spec-side operations). -/
def mat3Mul (A B : Mat3) : Mat3 where
  m00 := A.m00 * B.m00 + A.m01 * B.m10 + A.m02 * B.m20
  m01 := A.m00 * B.m01 + A.m01 * B.m11 + A.m02 * B.m21
  m02 := A.m00 * B.m02 + A.m01 * B.m12 + A.m02 * B.m22
  m10 := A.m10 * B.m00 + A.m11 * B.m10 + A.m12 * B.m20
  m11 := A.m10 * B.m01 + A.m11 * B.m11 + A.m12 * B.m21
  m12 := A.m10 * B.m02 + A.m11 * B.m12 + A.m12 * B.m22
  m20 := A.m20 * B.m00 + A.m21 * B.m10 + A.m22 * B.m20
  m21 := A.m20 * B.m01 + A.m21 * B.m11 + A.m22 * B.m21
  m22 := A.m20 * B.m02 + A.m21 * B.m12 + A.m22 * B.m22

/-- Upper-left 3x3 block. -/
def upper3 (M : Mat4) : Mat3 :=
  ⟨M.m00, M.m01, M.m02, M.m10, M.m11, M.m12, M.m20, M.m21, M.m22⟩

/-- `M.translation`: the fourth column. -/
def translationOf (M : Mat4) : Vec3 := ⟨M.m03, M.m13, M.m23⟩

/-- Modelled from mathutils `Matrix.decompose()` restricted to matrices whose
3x3 linear part is a pure rotation (no scale): the translation is the fourth
column and `deco[1].to_matrix()` recovers the 3x3 part itself.  The scale
component `deco[2]` is discarded by `apply_world_matrix`. -/
def matDecompose (M : Mat4) : Vec3 × Mat3 := (translationOf M, upper3 M)

/-- The in-place column swap
`temp = col[0]; col[0] = col[1]; col[1] = temp`. -/
def swapCols01 (R : Mat3) : Mat3 :=
  ⟨R.m01, R.m00, R.m02, R.m11, R.m10, R.m12, R.m21, R.m20, R.m22⟩

/-- `Matrix.to_4x4()`: extend with a zero fourth column/row, `m33 = 1`. -/
def to4x4 (R : Mat3) : Mat4 :=
  ⟨R.m00, R.m01, R.m02, 0,
   R.m10, R.m11, R.m12, 0,
   R.m20, R.m21, R.m22, 0,
   0, 0, 0, 1⟩

/-- `M.translation = t`: overwrite entries `m03, m13, m23`. -/
def setTranslation (M : Mat4) (t : Vec3) : Mat4 :=
  { M with m03 := t.x, m13 := t.y, m23 := t.z }

/-- `M.row[1] *= -1`: negate the whole second row, translation included. -/
def negRow1 (M : Mat4) : Mat4 :=
  { M with m10 := -M.m10, m11 := -M.m11, m12 := -M.m12, m13 := -M.m13 }

/-- `apply_world_matrix(matrix, matrix_world)` (`export_smf.py`, 560-581). -/
def apply_world_matrix (matrix matrix_world : Mat4) : Mat4 :=
  let mat_w := mat4Mul matrix_world matrix
  let deco := matDecompose mat_w
  let mat_rot := swapCols01 deco.2
  negRow1 (setTranslation (to4x4 mat_rot) deco.1)

/-- The column-swap of step (c) as a right-multiplied permutation matrix. -/
def colSwapMat : Mat3 := ⟨0, 1, 0, 1, 0, 0, 0, 0, 1⟩

/-- The Y-mirror of step (d) as a left-multiplied diagonal matrix. -/
def mirrorY3 : Mat3 := ⟨1, 0, 0, 0, -1, 0, 0, 0, 1⟩

/-- Y-negation of a translation vector. -/
def mirrorVec (t : Vec3) : Vec3 := ⟨t.x, -t.y, t.z⟩

/-- Transpose of a 3x3 matrix. -/
def transpose3 (R : Mat3) : Mat3 :=
  ⟨R.m00, R.m10, R.m20, R.m01, R.m11, R.m21, R.m02, R.m12, R.m22⟩

/-- The 3x3 identity matrix. -/
def identity3 : Mat3 := ⟨1, 0, 0, 0, 1, 0, 0, 0, 1⟩

/-- Determinant of a 3x3 matrix. -/
def det3 (R : Mat3) : ℚ :=
  R.m00 * (R.m11 * R.m22 - R.m12 * R.m21)
    - R.m01 * (R.m10 * R.m22 - R.m12 * R.m20)
    + R.m02 * (R.m10 * R.m21 - R.m11 * R.m20)

/-- `R` is a pure rotation: orthonormal with determinant 1.  On a 4x4 matrix
whose linear part satisfies this, mathutils `decompose()` returns unit scale
and a rotation whose `to_matrix()` is that linear part itself, so
`matDecompose` coincides with the real decomposition exactly on this
domain. -/
def isRotation3 (R : Mat3) : Prop :=
  mat3Mul (transpose3 R) R = identity3 ∧ det3 R = 1

/-- A pure translation by (0, 1, 0). -/
def Ttest : Mat4 := ⟨1, 0, 0, 0, 0, 1, 0, 1, 0, 0, 1, 0, 0, 0, 0, 1⟩

/-- The identity world matrix. -/
def Wtest : Mat4 := ⟨1, 0, 0, 0, 0, 1, 0, 0, 0, 0, 1, 0, 0, 0, 0, 1⟩

/-- C3 counterexample: for the identity world matrix and a pure translation
by (0,1,0) — scale-free, so the modelled decomposition agrees with
mathutils — the output translation is (0,-1,0), not the decomposed
translation (0,1,0): the `row[1] *= -1` mirror runs after the translation is
attached and negates its Y component. -/
theorem c3_counterexample :
    translationOf (apply_world_matrix Ttest Wtest)
      ≠ (matDecompose (mat4Mul Wtest Ttest)).1
    ∧ translationOf (apply_world_matrix Ttest Wtest) = ⟨0, -1, 0⟩
    ∧ (matDecompose (mat4Mul Wtest Ttest)).1 = ⟨0, 1, 0⟩ := by
  have h1 : translationOf (apply_world_matrix Ttest Wtest) = ⟨0, -1, 0⟩ := by
    norm_num [apply_world_matrix, matDecompose, translationOf, upper3,
      swapCols01, to4x4, setTranslation, negRow1, mat4Mul, Ttest, Wtest,
      Vec3.mk.injEq]
  have h2 : (matDecompose (mat4Mul Wtest Ttest)).1 = ⟨0, 1, 0⟩ := by
    norm_num [matDecompose, translationOf, mat4Mul, Ttest, Wtest,
      Vec3.mk.injEq]
  have h3 : (Vec3.mk 0 (-1) 0) ≠ ⟨0, 1, 0⟩ := by
    intro hcontra
    have hy := congrArg Vec3.y hcontra
    norm_num at hy
  exact ⟨by rw [h1, h2]; exact h3, h1, h2⟩

/-- C3 amended: for every input matrix and world matrix whose composition
has a pure-rotation linear part (no scale, the domain on which
`matDecompose` models mathutils `decompose()` exactly), the converter
composes world with local, decomposes (dropping scale), swaps the first two
basis columns (equal to right-multiplying by the permutation matrix), then
attaches the decomposed translation, and finally negates the entire second
row (equal to left-multiplying the linear part by `diag(1,-1,1)`), so the
output translation is the decomposed translation with its Y component
negated; the bottom row is (0,0,0,1).  The function is pure (it is a
function of its two arguments only). -/
theorem c3_apply_world_matrix (matrix matrix_world : Mat4)
    (hrot : isRotation3 (upper3 (mat4Mul matrix_world matrix))) :
    upper3 (apply_world_matrix matrix matrix_world)
      = mat3Mul mirrorY3
          (mat3Mul (upper3 (mat4Mul matrix_world matrix)) colSwapMat)
    ∧ translationOf (apply_world_matrix matrix matrix_world)
      = mirrorVec (translationOf (mat4Mul matrix_world matrix))
    ∧ (apply_world_matrix matrix matrix_world).m30 = 0
    ∧ (apply_world_matrix matrix matrix_world).m31 = 0
    ∧ (apply_world_matrix matrix matrix_world).m32 = 0
    ∧ (apply_world_matrix matrix matrix_world).m33 = 1 := by
  refine ⟨?_, ?_, rfl, rfl, rfl, rfl⟩
  · simp only [apply_world_matrix, matDecompose, translationOf, upper3,
      swapCols01, to4x4, setTranslation, negRow1, mat4Mul, mat3Mul,
      mirrorY3, colSwapMat, Mat3.mk.injEq]
    refine ⟨?_, ?_, ?_, ?_, ?_, ?_, ?_, ?_, ?_⟩ <;> ring
  · simp only [apply_world_matrix, matDecompose, translationOf, upper3,
      swapCols01, to4x4, setTranslation, negRow1, mat4Mul, mirrorVec,
      Vec3.mk.injEq]

/-- Witness for C3 at the identity world matrix and a pure translation,
whose composed linear part is the identity rotation. -/
theorem c3_apply_world_matrix_witness :
    isRotation3 (upper3 (mat4Mul Wtest Ttest))
    ∧ (upper3 (apply_world_matrix Ttest Wtest)
        = mat3Mul mirrorY3
            (mat3Mul (upper3 (mat4Mul Wtest Ttest)) colSwapMat)
      ∧ translationOf (apply_world_matrix Ttest Wtest)
        = mirrorVec (translationOf (mat4Mul Wtest Ttest))
      ∧ (apply_world_matrix Ttest Wtest).m30 = 0
      ∧ (apply_world_matrix Ttest Wtest).m31 = 0
      ∧ (apply_world_matrix Ttest Wtest).m32 = 0
      ∧ (apply_world_matrix Ttest Wtest).m33 = 1) :=
  ⟨by norm_num [isRotation3, mat3Mul, transpose3, identity3, det3, upper3,
      mat4Mul, Wtest, Ttest, Mat3.mk.injEq],
   c3_apply_world_matrix Ttest Wtest
     (by norm_num [isRotation3, mat3Mul, transpose3, identity3, det3, upper3,
        mat4Mul, Wtest, Ttest, Mat3.mk.injEq])⟩

end CoordConvert

namespace Rig

/-! ## The rig node-list builder, node-writing pass and bindmap
(`export_smf.py` lines 62-87 and 202-229; `smf.py` lines 47-72) -/

/-- A Blender bone as seen by the exporter: name (unique within an
armature), optional parent (by name), and the `use_connect` flag. -/
structure Bone where
  name : String
  parent : Option String
  use_connect : Bool
deriving DecidableEq

/-- A slot of the working node array.  Python stores `Bone`, `None`
(inserted placeholder) or `False` (overwritten placeholder); `None` and
`False` are observationally identical in this code (both falsy, neither
equal to a `Bone`), so both are modelled as `none`. -/
abbrev Slot : Type := Option Bone

/-- One step of the insertion loop of `smf_node_list`: insert `None` at
`bones.index(bone)` when the bone has a parent and is not connected. -/
def insertStep (bones : List Slot) (bone : Bone) : List Slot :=
  if bone.parent.isSome ∧ ¬bone.use_connect then
    bones.insertIdx (bones.findIdx (fun s => s == some bone)) none
  else bones

/-- `smf_node_list(armature_object)` (`export_smf.py`, lines 62-72):
walk the bone list, inserting a placeholder before every bone that has a
parent and is not connected to it. -/
def smf_node_list (bones_orig : List Bone) : List Slot :=
  bones_orig.foldl insertStep (bones_orig.map some)

/-- The per-bone shape of the finished node list: a disconnected bone with a
parent is preceded by its placeholder. -/
def expand (b : Bone) : List Slot :=
  if b.parent.isSome ∧ ¬b.use_connect then [none, some b] else [some b]

theorem findIdx_append_of_forall {α : Type} (p : α → Bool) (l1 l2 : List α)
    (h : ∀ x ∈ l1, p x = false) :
    (l1 ++ l2).findIdx p = l1.length + l2.findIdx p := by
  induction l1 with
  | nil => simp
  | cons a t ih =>
    rw [List.cons_append, List.findIdx_cons, h a (List.mem_cons_self a t),
      ih (fun x hx => h x (List.mem_cons_of_mem a hx))]
    simp
    omega

theorem insertIdx_append_length {α : Type} (l1 l2 : List α) (a : α) :
    (l1 ++ l2).insertIdx l1.length a = l1 ++ a :: l2 := by
  induction l1 with
  | nil => rfl
  | cons x t ih => simp [List.insertIdx_succ_cons, ih]

theorem nodeList_foldl : ∀ (rest : List Bone) (pe : List Slot),
    rest.Nodup → (∀ b ∈ rest, some b ∉ pe) →
    rest.foldl insertStep (pe ++ rest.map some) = pe ++ rest.flatMap expand := by
  intro rest
  induction rest with
  | nil => intro pe _ _; simp
  | cons b rest ih =>
    intro pe hnd hdisj
    have hnd' := (List.nodup_cons.mp hnd).2
    have hbmem := (List.nodup_cons.mp hnd).1
    rw [List.foldl_cons]
    by_cases hc : b.parent.isSome ∧ ¬b.use_connect
    · have hfind : (pe ++ (b :: rest).map some).findIdx
          (fun s => s == some b) = pe.length := by
        rw [findIdx_append_of_forall _ _ _ (fun x hx => ?_), List.map_cons,
          List.findIdx_cons]
        · simp
        · have hne : x ≠ some b := by
            intro hx'
            exact hdisj b (List.mem_cons_self b rest) (hx' ▸ hx)
          simp [hne]
      have hstep : insertStep (pe ++ (b :: rest).map some) b
          = (pe ++ [none, some b]) ++ rest.map some := by
        rw [insertStep, if_pos hc, hfind, List.map_cons,
          insertIdx_append_length pe (some b :: rest.map some) none]
        simp
      rw [hstep, ih (pe ++ [none, some b]) hnd' ?_]
      · simp [expand, hc, List.append_assoc]
      · intro b' hb' hmem
        simp only [List.mem_append, List.mem_cons] at hmem
        rcases hmem with h1 | h2
        · exact hdisj b' (List.mem_cons_of_mem b hb') h1
        · simp at h2
          exact hbmem (h2 ▸ hb')
    · have hstep : insertStep (pe ++ (b :: rest).map some) b
          = (pe ++ [some b]) ++ rest.map some := by
        rw [insertStep, if_neg hc, List.map_cons]
        simp
      rw [hstep, ih (pe ++ [some b]) hnd' ?_]
      · have hc' : ¬(b.parent.isSome = true ∧ b.use_connect = false) := by
          simpa using hc
        simp [expand, hc', List.append_assoc]
      · intro b' hb' hmem
        simp only [List.mem_append, List.mem_cons] at hmem
        rcases hmem with h1 | h2
        · exact hdisj b' (List.mem_cons_of_mem b hb') h1
        · simp at h2
          exact hbmem (h2 ▸ hb')

/-- With distinct bone names, the node list is exactly each bone in order,
preceded by a placeholder when disconnected from its parent. -/
theorem smf_node_list_eq (bones_orig : List Bone)
    (hnd : (bones_orig.map Bone.name).Nodup) :
    smf_node_list bones_orig = bones_orig.flatMap expand := by
  have h := nodeList_foldl bones_orig [] (hnd.of_map) (by simp)
  simpa [smf_node_list] using h

/-- One emitted rig node: the parent index and connected flag written at
`export_smf.py` lines 226-227 (the transform values are irrelevant here). -/
structure NodeOut where
  parent_index : ℕ
  connected : Bool
deriving DecidableEq

/-- `0 if not b.parent else bones.index(b.parent)`: position of the slot
holding the parent bone (mathutils bones compare by identity; names are
unique). -/
def parentIndexOf (bones : List Slot) (b : Bone) : ℕ :=
  match b.parent with
  | none => 0
  | some pname => bones.findIdx (fun s => (s.map Bone.name) == some pname)

/-- One iteration of the node-writing loop (`export_smf.py`, lines 202-229),
acting on the working array and the emitted nodes.  In the branch for a
disconnected bone the loop sets `bones[n-1] = False` (modelled as `none`). -/
def rigStep (st : List Slot × List NodeOut) (n : ℕ) : List Slot × List NodeOut :=
  let bones := st.1
  let bone := bones.getD n none
  match (match bone with
         | some bb => some bb
         | none => bones.getD (n + 1) none) with
  | none => (bones, st.2 ++ [⟨0, false⟩])
  | some b =>
    if bone.isSome ∧ b.parent.isSome ∧ ¬b.use_connect then
      (bones.set (n - 1) none, st.2 ++ [⟨n - 1, true⟩])
    else
      (bones, st.2 ++ [⟨parentIndexOf bones b, b.use_connect⟩])

/-- The node-writing pass: `for n, bone in enumerate(bones): ...`. -/
def rigPass (bones0 : List Slot) : List NodeOut :=
  ((List.range bones0.length).foldl rigStep (bones0, [])).2

/-- The node emitted at position `n` when the working array never changes. -/
def nodeAt (bones : List Slot) (n : ℕ) : NodeOut :=
  let bone := bones.getD n none
  match (match bone with
         | some bb => some bb
         | none => bones.getD (n + 1) none) with
  | none => ⟨0, false⟩
  | some b =>
    if bone.isSome ∧ b.parent.isSome ∧ ¬b.use_connect then
      ⟨n - 1, true⟩
    else
      ⟨parentIndexOf bones b, b.use_connect⟩

theorem set_none_of_getD : ∀ (l : List Slot) (i : ℕ),
    l.getD i none = none → l.set i none = l
  | [], _, _ => rfl
  | x :: t, 0, h => by simp_all [List.getD]
  | x :: t, i + 1, h => by
    simp only [List.set_cons_succ]
    rw [set_none_of_getD t i (by simpa [List.getD] using h)]

/-- In a node list of the `flatMap expand` shape, every disconnected bone
with a parent sits right after its placeholder. -/
theorem flatMap_preceded : ∀ (l : List Bone) (n : ℕ) (b : Bone),
    (l.flatMap expand).getD n none = some b → b.parent.isSome →
    ¬b.use_connect →
    (l.flatMap expand).getD (n - 1) none = none ∧ 1 ≤ n := by
  intro l
  induction l with
  | nil => intro n b h _ _; simp [List.getD] at h
  | cons b0 rest ih =>
    intro n b h hpar hcon
    by_cases hc : b0.parent.isSome ∧ ¬b0.use_connect
    · have hexp : (b0 :: rest).flatMap expand
          = none :: some b0 :: rest.flatMap expand := by
        simp [expand, hc]
      rw [hexp] at h ⊢
      match n with
      | 0 => simp [List.getD] at h
      | 1 => simp [List.getD]
      | (k + 2) =>
        have hk := ih k b (by simpa [List.getD] using h) hpar hcon
        refine ⟨?_, by omega⟩
        show (none :: some b0 :: rest.flatMap expand).getD (k + 1) none = none
        match k, hk.2 with
        | (j + 1), _ =>
          simpa [List.getD] using hk.1
    · have hc' : ¬(b0.parent.isSome = true ∧ b0.use_connect = false) := by
        simpa using hc
      have hexp : (b0 :: rest).flatMap expand
          = some b0 :: rest.flatMap expand := by
        simp [expand, hc']
      rw [hexp] at h ⊢
      match n with
      | 0 =>
        simp [List.getD] at h
        subst h
        exact absurd ⟨hpar, hcon⟩ hc
      | (k + 1) =>
        have hk := ih k b (by simpa [List.getD] using h) hpar hcon
        constructor
        · show (some b0 :: rest.flatMap expand).getD k none = none
          match k, hk.2 with
          | (j + 1), _ =>
            simpa [List.getD] using hk.1
        · omega

theorem rigStep_eq (bones0 : List Slot)
    (hC : ∀ n b, bones0.getD n none = some b → b.parent.isSome = true →
          ¬b.use_connect = true → bones0.getD (n - 1) none = none ∧ 1 ≤ n)
    (out : List NodeOut) (n : ℕ) :
    rigStep (bones0, out) n = (bones0, out ++ [nodeAt bones0 n]) := by
  unfold rigStep nodeAt
  cases hbone : bones0.getD n none with
  | none =>
    simp only [hbone]
    cases hnext : bones0.getD (n + 1) none with
    | none => rfl
    | some b =>
      dsimp only
      rw [if_neg (by simp)]
      rw [if_neg (by simp)]
  | some bb =>
    simp only [hbone]
    by_cases hcb : bb.parent.isSome = true ∧ ¬bb.use_connect = true
    · rw [if_pos ⟨rfl, hcb.1, hcb.2⟩,
        set_none_of_getD _ _ (hC n bb hbone hcb.1 hcb.2).1]
      rw [if_pos ⟨rfl, hcb.1, hcb.2⟩]
    · rw [if_neg (fun hcontra => hcb ⟨hcontra.2.1, hcontra.2.2⟩)]
      rw [if_neg (fun hcontra => hcb ⟨hcontra.2.1, hcontra.2.2⟩)]

theorem rigPass_foldl (bones0 : List Slot)
    (hC : ∀ n b, bones0.getD n none = some b → b.parent.isSome = true →
          ¬b.use_connect = true → bones0.getD (n - 1) none = none ∧ 1 ≤ n) :
    ∀ (ns : List ℕ) (out : List NodeOut),
    ns.foldl rigStep (bones0, out) = (bones0, out ++ ns.map (nodeAt bones0)) := by
  intro ns
  induction ns with
  | nil => intro out; simp
  | cons k t ih =>
    intro out
    rw [List.foldl_cons, rigStep_eq bones0 hC out k, ih]
    simp

/-- When every disconnected bone is preceded by a placeholder, the
`bones[n-1] = False` writes never change the array and the pass is a plain
map over positions. -/
theorem rigPass_eq_map (bones0 : List Slot)
    (hC : ∀ n b, bones0.getD n none = some b → b.parent.isSome = true →
          ¬b.use_connect = true → bones0.getD (n - 1) none = none ∧ 1 ≤ n) :
    rigPass bones0 = (List.range bones0.length).map (nodeAt bones0) := by
  unfold rigPass
  rw [rigPass_foldl bones0 hC _ []]
  simp

/-- C4: for every bone list with distinct names containing a bone `B` that
has a parent and `use_connect = false`, the node array contains a synthetic
(`none`) node immediately preceding `B`'s node, the emitted node for `B` has
`parent_index` equal to that synthetic node's array index (`i - 1`) and its
connected flag forced to `true`; and in particular for two bones with the
child not connected to the parent the node array has length 3 with the
emitted nodes `[⟨0, false⟩, ⟨0, false⟩, ⟨1, true⟩]`: child.parent_index = 1
(the synthetic node) and synthetic.parent_index = 0. -/
theorem c4_synthetic_node_insertion :
    (∀ (bones_orig : List Bone) (B : Bone),
      (bones_orig.map Bone.name).Nodup → B ∈ bones_orig →
      B.parent.isSome = true → B.use_connect = false →
      ∃ i, 1 ≤ i
        ∧ (smf_node_list bones_orig).getD i none = some B
        ∧ (smf_node_list bones_orig).getD (i - 1) none = none
        ∧ (rigPass (smf_node_list bones_orig)).getD i ⟨0, false⟩
            = ⟨i - 1, true⟩)
    ∧ (smf_node_list [⟨"P", none, false⟩, ⟨"C", some "P", false⟩]).length = 3
    ∧ rigPass (smf_node_list [⟨"P", none, false⟩, ⟨"C", some "P", false⟩])
        = [⟨0, false⟩, ⟨0, false⟩, ⟨1, true⟩] := by
  refine ⟨?_, by decide, by decide⟩
  intro bones_orig B hnd hB hpar hcon
  have hcon' : ¬B.use_connect = true := by simp [hcon]
  have hflat := smf_node_list_eq bones_orig hnd
  obtain ⟨l1, l2, hsplit⟩ := List.append_of_mem hB
  have hexp : smf_node_list bones_orig
      = l1.flatMap expand ++ (none :: some B :: l2.flatMap expand) := by
    rw [hflat, hsplit, List.flatMap_append, List.flatMap_cons]
    have : expand B = [none, some B] := by
      simp [expand, hpar, hcon]
    rw [this]
    simp
  refine ⟨(l1.flatMap expand).length + 1, by omega, ?_, ?_, ?_⟩
  · rw [hexp, List.getD_append_right _ _ _ _ (by omega)]
    simp [List.getD]
  · rw [hexp]
    have : (l1.flatMap expand).length + 1 - 1 = (l1.flatMap expand).length := by
      omega
    rw [this, List.getD_append_right _ _ _ _ (by omega)]
    simp [List.getD]
  · have hC : ∀ n b, (smf_node_list bones_orig).getD n none = some b →
        b.parent.isSome = true → ¬b.use_connect = true →
        (smf_node_list bones_orig).getD (n - 1) none = none ∧ 1 ≤ n := by
      intro n b hb hp hc
      rw [hflat] at hb ⊢
      exact flatMap_preceded bones_orig n b hb hp hc
    rw [rigPass_eq_map _ hC]
    set i := (l1.flatMap expand).length + 1 with hi
    have hilt : i < (smf_node_list bones_orig).length := by
      rw [hexp, List.length_append, List.length_cons, List.length_cons]
      omega
    have hrange : ((List.range (smf_node_list bones_orig).length).map
        (nodeAt (smf_node_list bones_orig))).getD i ⟨0, false⟩
        = nodeAt (smf_node_list bones_orig) i := by
      rw [List.getD_eq_getElem?_getD, List.getElem?_map,
        List.getElem?_range hilt]
      rfl
    rw [hrange]
    have hgi : (smf_node_list bones_orig).getD i none = some B := by
      rw [hexp, List.getD_append_right _ _ _ _ (by omega)]
      simp [hi, List.getD]
    unfold nodeAt
    simp only [hgi]
    rw [if_pos ⟨rfl, hpar, hcon'⟩]

/-- Witness for C4 at the two-bone scenario, with `B` the child bone. -/
theorem c4_synthetic_node_insertion_witness :
    (([⟨"P", none, false⟩, ⟨"C", some "P", false⟩]
        : List Bone).map Bone.name).Nodup
    ∧ (⟨"C", some "P", false⟩ : Bone)
        ∈ ([⟨"P", none, false⟩, ⟨"C", some "P", false⟩] : List Bone)
    ∧ ∃ i, 1 ≤ i
        ∧ (smf_node_list [⟨"P", none, false⟩, ⟨"C", some "P", false⟩]).getD
            i none = some ⟨"C", some "P", false⟩
        ∧ (smf_node_list [⟨"P", none, false⟩, ⟨"C", some "P", false⟩]).getD
            (i - 1) none = none
        ∧ (rigPass (smf_node_list
            [⟨"P", none, false⟩, ⟨"C", some "P", false⟩])).getD i ⟨0, false⟩
            = ⟨i - 1, true⟩ :=
  ⟨by decide, by decide,
   c4_synthetic_node_insertion.1
     [⟨"P", none, false⟩, ⟨"C", some "P", false⟩] ⟨"C", some "P", false⟩
     (by decide) (by decide) (by decide) (by decide)⟩

/-- A Python dict insertion `d[k] = v`: overwrite in place if the key is
present, else append (insertion order preserved). -/
def dictInsert (d : List (String × ℕ)) (k : String) (v : ℕ) :
    List (String × ℕ) :=
  if d.any (fun p => p.1 == k) then
    d.map (fun p => if p.1 == k then (p.1, v) else p)
  else d ++ [(k, v)]

/-- `smf_bindmap(bones)` (`export_smf.py` lines 74-87 and the identical
`smf.py` lines 59-72): keep the real bones with a parent, then assign
`bindmap[node.name] = 0, 1, 2, ...` in traversal order. -/
def smf_bindmap (bones : List Slot) : List (String × ℕ) :=
  (((bones.filterMap id).filter (fun b => b.parent.isSome)).foldl
    (fun st b => (dictInsert st.1 b.name st.2, st.2 + 1)) ([], 0)).1

/-- The real bones of the expanded node list are the original bones. -/
theorem filterMap_flatMap_expand (l : List Bone) :
    (l.flatMap expand).filterMap id = l := by
  induction l with
  | nil => rfl
  | cons b rest ih =>
    rw [List.flatMap_cons, List.filterMap_append, ih]
    by_cases hc : b.parent.isSome ∧ ¬b.use_connect
    · simp [expand, hc]
    · have hc' : ¬(b.parent.isSome = true ∧ b.use_connect = false) := by
        simpa using hc
      simp [expand, hc']

theorem bindmap_foldl : ∀ (bs : List Bone) (d : List (String × ℕ)) (c : ℕ),
    (∀ b ∈ bs, ∀ p ∈ d, p.1 ≠ b.name) → (bs.map Bone.name).Nodup →
    (bs.foldl (fun st b => (dictInsert st.1 b.name st.2, st.2 + 1)) (d, c)).1
      = d ++ (bs.enumFrom c).map (fun p => (p.2.name, p.1)) := by
  intro bs
  induction bs with
  | nil => intro d c _ _; simp
  | cons b rest ih =>
    intro d c hfresh hnd
    rw [List.foldl_cons]
    have hnotin : (d.any (fun p => p.1 == b.name)) = false := by
      simp only [List.any_eq_false, beq_iff_eq]
      intro p hmem
      exact hfresh b (List.mem_cons_self b rest) p hmem
    have hd : dictInsert d b.name c = d ++ [(b.name, c)] := by
      rw [dictInsert, if_neg (by simp [hnotin])]
    dsimp only
    rw [hd]
    rw [ih (d ++ [(b.name, c)]) (c + 1) ?_ ?_]
    · rw [List.enumFrom_cons]
      simp
    · intro b' hb' p hp
      rcases List.mem_append.mp hp with h1 | h2
      · exact hfresh b' (List.mem_cons_of_mem b hb') p h1
      · simp only [List.mem_singleton] at h2
        subst h2
        have hnd' : (∀ x ∈ rest, ¬x.name = b.name)
            ∧ (rest.map Bone.name).Nodup := by simpa using hnd
        intro hcontra
        have hcontra' : b.name = b'.name := hcontra
        exact hnd'.1 b' hb' hcontra'.symm
    · have hnd' : (∀ x ∈ rest, ¬x.name = b.name)
          ∧ (rest.map Bone.name).Nodup := by simpa using hnd
      exact hnd'.2

/-- C5: over the node list of a rig whose bones have distinct names, the
bindmap has exactly one entry per bone having a parent (synthetic nodes and
parentless bones get none), keyed by bone name in node-array traversal
order, with values exactly `0, 1, ..., B-1` (no duplicates or gaps). -/
theorem c5_bindmap_contiguity (bones_orig : List Bone)
    (hnd : (bones_orig.map Bone.name).Nodup) :
    (smf_bindmap (smf_node_list bones_orig)).length
      = (bones_orig.filter (fun b => b.parent.isSome)).length
    ∧ (smf_bindmap (smf_node_list bones_orig)).map Prod.snd
      = List.range (bones_orig.filter (fun b => b.parent.isSome)).length
    ∧ (smf_bindmap (smf_node_list bones_orig)).map Prod.fst
      = (bones_orig.filter (fun b => b.parent.isSome)).map Bone.name := by
  have hflat := smf_node_list_eq bones_orig hnd
  have hfm : (smf_node_list bones_orig).filterMap id = bones_orig := by
    rw [hflat]
    exact filterMap_flatMap_expand bones_orig
  have hbsnd : (((bones_orig.filter (fun b => b.parent.isSome)).map
      Bone.name)).Nodup :=
    List.Nodup.sublist ((List.filter_sublist bones_orig).map Bone.name) hnd
  have hmap : smf_bindmap (smf_node_list bones_orig)
      = (((bones_orig.filter (fun b => b.parent.isSome)).enumFrom 0).map
          (fun p => (p.2.name, p.1))) := by
    unfold smf_bindmap
    rw [hfm, bindmap_foldl _ [] 0 (by simp) hbsnd]
    simp
  refine ⟨?_, ?_, ?_⟩
  · rw [hmap, List.length_map, List.enumFrom_length]
  · rw [hmap, List.map_map]
    have hcomp : (Prod.snd ∘ fun p : ℕ × Bone => (p.2.name, p.1))
        = Prod.fst := rfl
    rw [hcomp, List.enumFrom_map_fst, ← List.range_eq_range']
  · rw [hmap, List.map_map]
    have hcomp : (Prod.fst ∘ fun p : ℕ × Bone => (p.2.name, p.1))
        = (Bone.name ∘ Prod.snd) := rfl
    rw [hcomp, ← List.map_map, List.enumFrom_map_snd]

/-- Witness for C5 at a three-bone rig (root plus two parented bones, the
second disconnected). -/
theorem c5_bindmap_contiguity_witness :
    (([⟨"R", none, false⟩, ⟨"A", some "R", true⟩, ⟨"B", some "A", false⟩]
        : List Bone).map Bone.name).Nodup
    ∧ ((smf_bindmap (smf_node_list
          [⟨"R", none, false⟩, ⟨"A", some "R", true⟩,
           ⟨"B", some "A", false⟩])).length
        = (([⟨"R", none, false⟩, ⟨"A", some "R", true⟩,
            ⟨"B", some "A", false⟩] : List Bone).filter
            (fun b => b.parent.isSome)).length
      ∧ (smf_bindmap (smf_node_list
          [⟨"R", none, false⟩, ⟨"A", some "R", true⟩,
           ⟨"B", some "A", false⟩])).map Prod.snd
        = List.range (([⟨"R", none, false⟩, ⟨"A", some "R", true⟩,
            ⟨"B", some "A", false⟩] : List Bone).filter
            (fun b => b.parent.isSome)).length
      ∧ (smf_bindmap (smf_node_list
          [⟨"R", none, false⟩, ⟨"A", some "R", true⟩,
           ⟨"B", some "A", false⟩])).map Prod.fst
        = (([⟨"R", none, false⟩, ⟨"A", some "R", true⟩,
            ⟨"B", some "A", false⟩] : List Bone).filter
            (fun b => b.parent.isSome)).map Bone.name) :=
  ⟨by decide,
   c5_bindmap_contiguity
     [⟨"R", none, false⟩, ⟨"A", some "R", true⟩, ⟨"B", some "A", false⟩]
     (by decide)⟩

end Rig

namespace AnimState

/-! ## Scene-state save/restore around animation export
(`export_smf.py`, lines 475-517 and 396-440) -/

/-- The scene state mutated by the animation export: the armature's active
action (by id), the NLA tracks' mute flags, and the scene's current frame. -/
structure SceneState where
  action : Option ℕ
  mutes : List Bool
  frame : ℤ
deriving DecidableEq

/-- `export_type` of `export_smf_file`. -/
inductive ExportType where
  | KFR
  | SPL
deriving DecidableEq

/-- Keyframe-times determination in `'KFR'` mode (lines 490-492):
`kf_times = sorted({p.co[0] ...}); kf_end = kf_times[len(kf_times)-1]`.
For an action with no keyframe points this indexes an empty list and raises
`IndexError` (modelled as `.error ()`). -/
def kf_times_KFR (points : List ℚ) : Except Unit (List ℚ × ℚ) :=
  let kf_times := points.dedup.mergeSort (fun a b => a ≤ b)
  match kf_times.getLast? with
  | none => .error ()
  | some e => .ok (kf_times, e)

/-- The scene-frame side effects of `write_animation_data` (lines 396-440):
remember `frame_prev`, `frame_set` each keyframe time (truncated by
`modf`/`int`), and restore `frame_prev` at the end. -/
def write_animation_data (st : SceneState) (kf_times : List ℚ) : SceneState :=
  let frame_prev := st.frame
  let st1 := kf_times.foldl (fun s t => { s with frame := pyTrunc t }) st
  { st1 with frame := frame_prev }

/-- The body of the per-animation loop (lines 475-517): save the action and
mute flags, mute every track, assign the action, determine keyframe times
(which can raise in `'KFR'` mode), sample, then restore action and mutes.
There is no `try/finally`: when keyframe determination raises, the exception
propagates with the scene still mutated (`.error` carries the state at the
raise). -/
def export_one_anim (st : SceneState) (anim : ℕ) (export_type : ExportType)
    (points : List ℚ) (frame_start frame_end : ℚ) (subdivisions : ℕ) :
    Except SceneState SceneState :=
  let action_prev := st.action
  let mute_prev := st.mutes
  let st1 : SceneState :=
    { st with mutes := st.mutes.map (fun _ => true), action := some anim }
  match (match export_type with
         | .KFR => kf_times_KFR points
         | .SPL => .ok (AnimSampler.spl_kf_times frame_start frame_end
             subdivisions,
           AnimSampler.spl_kf_end frame_start frame_end subdivisions)) with
  | .error _ => .error st1
  | .ok kf =>
    let st2 := write_animation_data st1 kf.1
    .ok { st2 with action := action_prev, mutes := mute_prev }

/-- C7: on the success path every mutated value (action, mute flags, frame)
is restored, but the restore is not exception-safe: in `'KFR'` mode an
action with zero keyframe points raises `IndexError` after all tracks were
muted and the action was swapped, and the exception leaves the scene state
mutated (mute flags all `true`, action replaced). -/
theorem c7_restore_not_exception_safe :
    (∀ (st : SceneState) (anim : ℕ) (et : ExportType) (points : List ℚ)
        (fs fe : ℚ) (sd : ℕ) (st' : SceneState),
      export_one_anim st anim et points fs fe sd = .ok st' →
      st'.action = st.action ∧ st'.mutes = st.mutes ∧ st'.frame = st.frame)
    ∧ export_one_anim ⟨some 7, [false, false], 5⟩ 9 .KFR [] 0 100 4
        = .error ⟨some 9, [true, true], 5⟩
    ∧ (SceneState.mutes ⟨some 9, [true, true], 5⟩
        ≠ SceneState.mutes ⟨some 7, [false, false], 5⟩
      ∧ SceneState.action ⟨some 9, [true, true], 5⟩
        ≠ SceneState.action ⟨some 7, [false, false], 5⟩) := by
  refine ⟨?_, ?_, by decide, by decide⟩
  swap
  · have hkfr : kf_times_KFR ([] : List ℚ) = .error () := by
      unfold kf_times_KFR
      rw [List.dedup_nil, List.mergeSort_nil]
      rfl
    unfold export_one_anim
    simp only [hkfr]
    rfl
  intro st anim et points fs fe sd st' h
  unfold export_one_anim at h
  cases hk : (match et with
         | ExportType.KFR => kf_times_KFR points
         | ExportType.SPL => .ok (AnimSampler.spl_kf_times fs fe sd,
             AnimSampler.spl_kf_end fs fe sd)) with
  | error e => rw [hk] at h; exact absurd h (by simp)
  | ok kf =>
    rw [hk] at h
    simp only [Except.ok.injEq] at h
    subst h
    refine ⟨rfl, rfl, rfl⟩

/-- Witness for C7's success-path clause, in `'SPL'` mode. -/
theorem c7_restore_witness :
    export_one_anim ⟨some 7, [false, true], 5⟩ 9 .SPL [] 0 1 1
      = .ok ⟨some 7, [false, true], 5⟩
    ∧ (SceneState.action ⟨some 7, [false, true], 5⟩
          = SceneState.action ⟨some 7, [false, true], 5⟩
      ∧ SceneState.mutes ⟨some 7, [false, true], 5⟩
          = SceneState.mutes ⟨some 7, [false, true], 5⟩
      ∧ SceneState.frame ⟨some 7, [false, true], 5⟩
          = SceneState.frame ⟨some 7, [false, true], 5⟩) := by
  have hok : export_one_anim ⟨some 7, [false, true], 5⟩ 9 .SPL [] 0 1 1
      = .ok ⟨some 7, [false, true], 5⟩ := by
    unfold export_one_anim write_animation_data
    norm_num [AnimSampler.spl_kf_times, AnimSampler.spl_kf_end]
  exact ⟨hok,
    c7_restore_not_exception_safe.1 ⟨some 7, [false, true], 5⟩ 9 .SPL []
      0 1 1 ⟨some 7, [false, true], 5⟩ hok⟩

end AnimState
